import Mathlib

/-
Verification of the agent-orchestration core (memory manager, message router,
context assembler, tiered LLM brain) against its design specification.

The Python source is shallowly embedded: floats become rationals, SQL
timestamps become integers, fallible external calls become `Option`-valued
oracles passed as parameters, and each method becomes a pure Lean function
over an explicit record-list state.
-/

namespace Sai

/- ================= Memory records (table agent_memory) ================= -/

/-- Shallow embedding of a row of the `agent_memory` table, keeping the fields
the memory manager reads or writes.  Timestamps are integers (e.g. seconds);
`expires_at` and `last_accessed_at` are nullable in the schema. -/
structure Mem where
  id : ℕ
  content : String
  category : String
  confidence : ℚ
  verified : Bool
  expires_at : Option ℤ
  last_accessed_at : Option ℤ
  created_at : ℤ
  access_count : ℕ
  has_embedding : Bool
deriving DecidableEq

/-- Thirty days, in the integer time unit used for timestamps (seconds). -/
def thirty_days : ℤ := 30 * 86400

/-- Ninety days, in the integer time unit used for timestamps (seconds). -/
def ninety_days : ℤ := 90 * 86400

/- ================= Reciprocal Rank Fusion (MemoryManager._rrf_merge) ===== -/

/-- One `scores[rid] = scores.get(rid, 0) + v` update on the insertion-ordered
score dictionary, embedded as an association list: an existing key is updated
in place, a new key is appended. -/
def bump_score (rid : ℕ) (v : ℚ) : List (ℕ × ℚ) → List (ℕ × ℚ)
  | [] => [(rid, v)]
  | (r, s) :: rest =>
      if r = rid then (r, s + v) :: rest else (r, s) :: bump_score rid v rest

/-- The `for rank, result in enumerate(results)` loop of `_rrf_merge` over one
ranked list: each id at 0-based rank `rank` contributes `1 / (k + rank + 1)`. -/
def rrf_pass (k : ℕ) : ℕ → List ℕ → List (ℕ × ℚ) → List (ℕ × ℚ)
  | _, [], scores => scores
  | rank, rid :: rest, scores =>
      rrf_pass k (rank + 1) rest
        (bump_score rid (1 / ((k : ℚ) + (rank : ℚ) + 1)) scores)

/-- The combined score dictionary of `_rrf_merge`: first the vector list is
folded in, then the full-text list. -/
def rrf_scores (vector_results fts_results : List ℕ) (k : ℕ) : List (ℕ × ℚ) :=
  rrf_pass k 0 fts_results (rrf_pass k 0 vector_results [])

/-- Insertion of one id/score pair into a descending-sorted list: the new
element goes after every element with a strictly greater score and before
every element with an equal or smaller one.  `sort_desc` folds from the
right, so the element being inserted came *earlier* in the original list
than everything already in the accumulator; placing it before equal scores
therefore keeps insertion order on ties. -/
def insert_desc (x : ℕ × ℚ) : List (ℕ × ℚ) → List (ℕ × ℚ)
  | [] => [x]
  | y :: ys => if y.2 ≤ x.2 then x :: y :: ys else y :: insert_desc x ys

/-- Stable sort by descending score, the embedding of
`sorted(scores.items(), key=lambda x: x[1], reverse=True)` (Python's sort is
stable: entries with equal scores keep their dictionary insertion order). -/
def sort_desc (l : List (ℕ × ℚ)) : List (ℕ × ℚ) :=
  l.foldr insert_desc []

/-- `_rrf_merge`: the score dictionary sorted by descending combined score
(every id of the dictionary also appears in `data`, so the trailing
`if rid in data` filter of the comprehension keeps every entry). -/
def rrf_merge (vector_results fts_results : List ℕ) (k : ℕ) : List (ℕ × ℚ) :=
  sort_desc (rrf_scores vector_results fts_results k)

/-- The score a record id receives from one ranked list: `1 / (k + rank + 1)`
at its 0-based rank if it appears, otherwise nothing. -/
def contrib (k : ℕ) (l : List ℕ) (rid : ℕ) : ℚ :=
  if rid ∈ l then 1 / ((k : ℚ) + (l.indexOf rid : ℚ) + 1) else 0

/-- Lookup of an id in the score dictionary, defaulting to 0. -/
def lookup_score (scores : List (ℕ × ℚ)) (rid : ℕ) : ℚ :=
  ((scores.find? (fun p => p.1 = rid)).map Prod.snd).getD 0

/-- Embedding of Python's `round(score, 6)` applied to the fused score before
it is stored under `relevance_score` (ties at exactly half an ulp round
differently in Python, but no reachable score lands there). -/
def round6 (q : ℚ) : ℚ :=
  ((round (q * 1000000) : ℤ) : ℚ) / 1000000

/- ================= Search (MemoryManager.search) ================= -/

/-- One search hit as returned by `MemoryManager.search`: the record id, the
confidence that came back with the row (`row["confidence"] or 0.5`), and the
fused `relevance_score` — present only when the hit went through `_rrf_merge`. -/
structure Hit where
  id : ℕ
  confidence : ℚ
  relevance_score : Option ℚ
deriving DecidableEq

/-- Confidence attached to a returned row: `row["confidence"] or 0.5`
(a NULL or 0.0 confidence is replaced by 0.5 by Python's `or`). -/
def conf_of (records : List Mem) (rid : ℕ) : ℚ :=
  match records.find? (fun r => r.id = rid) with
  | some r => if r.confidence = 0 then 1/2 else r.confidence
  | none => 1/2

/-- The merged, confidence-filtered, truncated hit list of
`MemoryManager.search`.  `vector_ids` and `fts_ids` are the ranked id lists
returned by the pgvector and tsvector queries (ranking oracles external to the
manager); `use_vectors` is true when an embedding provider is available and
the semantic search did not raise, in which case the two lists are merged by
RRF with k = 60, otherwise the lexical results are used as-is (and carry no
`relevance_score`). -/
def search_results (records : List Mem) (vector_ids fts_ids : List ℕ)
    (use_vectors : Bool) (lim : ℕ) (min_confidence : ℚ) : List Hit :=
  let merged : List Hit :=
    if use_vectors then
      (rrf_merge vector_ids fts_ids 60).map
        (fun p => ⟨p.1, conf_of records p.1, some (round6 p.2)⟩)
    else
      fts_ids.map (fun rid => ⟨rid, conf_of records rid, none⟩)
  (merged.filter (fun h => min_confidence ≤ h.confidence)).take lim

/-- `MemoryManager._track_access`: bump `access_count` and refresh
`last_accessed_at` for every returned record. -/
def track_access (now : ℤ) (ids : List ℕ) (records : List Mem) : List Mem :=
  records.map (fun r =>
    if r.id ∈ ids then
      { r with access_count := r.access_count + 1, last_accessed_at := some now }
    else r)

/-- `MemoryManager.search`: compute the hits, then update access tracking for
the returned results (only when the result list is non-empty). -/
def search (records : List Mem) (vector_ids fts_ids : List ℕ)
    (use_vectors : Bool) (lim : ℕ) (min_confidence : ℚ) (now : ℤ) :
    List Hit × List Mem :=
  let results := search_results records vector_ids fts_ids use_vectors lim min_confidence
  (results,
    if results.isEmpty then records
    else track_access now (results.map (fun h => h.id)) records)

/- ================= Store and confidence updates ================= -/

/-- `MemoryManager._bump_confidence`: `confidence = LEAST(confidence + 0.1, 1.0)`
plus an access bump, applied to the record with the given id. -/
def bump_confidence (now : ℤ) (memory_id : ℕ) (records : List Mem) : List Mem :=
  records.map (fun r =>
    if r.id = memory_id then
      { r with
          confidence := min (r.confidence + 1/10) 1,
          access_count := r.access_count + 1,
          last_accessed_at := some now }
    else r)

/-- `MemoryManager.update_confidence`: set the confidence verbatim (the code
applies no clamping). -/
def update_confidence (memory_id : ℕ) (confidence : ℚ) (records : List Mem) :
    List Mem :=
  records.map (fun r =>
    if r.id = memory_id then { r with confidence := confidence } else r)

/-- Result of `MemoryManager.store`: the records after the call, the returned
id, and whether a new row was inserted (as opposed to the near-duplicate
confidence bump). -/
structure StoreResult where
  records : List Mem
  returned_id : ℕ
  inserted : Bool
deriving DecidableEq

/-- `MemoryManager.store`: search the new content first (limit 1, default
minimum confidence 0);  if there is a top hit whose `relevance_score`
(defaulting to 0 when absent) exceeds 0.03, bump the existing record's
confidence and return its id without inserting; otherwise insert a new record
— with an embedding only when a provider is available (`has_vectors`) and
encoding succeeds (`embed_ok`). -/
def store (records : List Mem) (vector_ids fts_ids : List ℕ)
    (has_vectors search_vectors_ok embed_ok : Bool)
    (new_id : ℕ) (content : String) (category : String)
    (confidence : ℚ) (expires_at : Option ℤ) (now : ℤ) : StoreResult :=
  let s := search records vector_ids fts_ids (has_vectors && search_vectors_ok)
             1 0 now
  let records1 := s.2
  let insert : StoreResult :=
    ⟨records1 ++
      [{ id := new_id, content := content, category := category,
         confidence := confidence, verified := false,
         expires_at := expires_at, last_accessed_at := none,
         created_at := now, access_count := 0,
         has_embedding := has_vectors && embed_ok }],
      new_id, true⟩
  match s.1 with
  | [] => insert
  | top :: _ =>
      if (top.relevance_score.getD 0) > 3/100 then
        ⟨bump_confidence now top.id records1, top.id, false⟩
      else insert

/- ================= Prune (MemoryManager.prune) ================= -/

/-- Whether the first DELETE of `prune` removes the record:
`expires_at IS NOT NULL AND expires_at < NOW()` — note there is no
`verified` guard on this statement. -/
def is_expired (now : ℤ) (r : Mem) : Bool :=
  match r.expires_at with
  | some t => t < now
  | none => false

/-- Whether the decay UPDATE of `prune` matches the record:
`last_accessed_at < NOW() - INTERVAL '30 days' AND confidence > 0.1 AND
verified = FALSE` (a NULL `last_accessed_at` never satisfies the comparison). -/
def decay_matches (now : ℤ) (r : Mem) : Bool :=
  (match r.last_accessed_at with
   | some t => t < now - thirty_days
   | none => false)
  && decide ((1:ℚ)/10 < r.confidence) && !r.verified

/-- Whether the final DELETE of `prune` matches the record:
`confidence < 0.1 AND created_at < NOW() - INTERVAL '90 days' AND
verified = FALSE`. -/
def prune_delete_matches (now : ℤ) (r : Mem) : Bool :=
  decide (r.confidence < (1:ℚ)/10) && decide (r.created_at < now - ninety_days)
    && !r.verified

/-- `MemoryManager.prune`: delete expired rows, decay (`* 0.95`) unverified
stale rows, then delete old unverified low-confidence rows; returns the new
records plus the three row counts `(expired, decayed, deleted)`. -/
def prune (now : ℤ) (records : List Mem) : List Mem × ℕ × ℕ × ℕ :=
  let kept1 := records.filter (fun r => !is_expired now r)
  let expired := records.length - kept1.length
  let decayed := (kept1.filter (decay_matches now)).length
  let stage2 := kept1.map (fun r =>
    if decay_matches now r then { r with confidence := r.confidence * (95/100) }
    else r)
  let kept3 := stage2.filter (fun r => !prune_delete_matches now r)
  let deleted := stage2.length - kept3.length
  (kept3, expired, decayed, deleted)

/- ================= Message router ================= -/

/-- Whitespace in the sense of Python's `str.strip` / `str.split`
(the ASCII whitespace characters; the texts at issue are ASCII). -/
def is_space (c : Char) : Bool :=
  c == ' ' || c == '\t' || c == '\n' || c == '\r' || c == '\x0b' || c == '\x0c'

/-- Python `text.lstrip()`. -/
def lstrip (l : List Char) : List Char := l.dropWhile is_space

/-- Python `text.rstrip()`. -/
def rstrip (l : List Char) : List Char :=
  (l.reverse.dropWhile is_space).reverse

/-- Python `text.rfind(sub, 0, stop)`: the greatest index `i` with
`i + sub.length ≤ stop` at which `sub` occurs in `text`, if any. -/
def rfind_sub (t sub : List Char) (stop : ℕ) : Option ℕ :=
  ((List.range (stop + 1 - sub.length)).reverse).find?
    (fun i => (t.drop i).take sub.length == sub)

/-- The split-point cascade of `MessageRouter._split_at_boundaries`: double
newline, then single newline, then period+space (cutting after the period),
then a space, then a hard cut at `max_length`. -/
def split_point (max_length : ℕ) (t : List Char) : ℕ :=
  match rfind_sub t ['\n', '\n'] max_length with
  | some i => i
  | none =>
    match rfind_sub t ['\n'] max_length with
    | some i => i
    | none =>
      match rfind_sub t ['.', ' '] max_length with
      | some i => i + 1
      | none =>
        match rfind_sub t [' '] max_length with
        | some i => i
        | none => max_length

/-- The `while len(text) > max_length` loop of `_split_at_boundaries`,
with explicit fuel; each iteration appends `text[:split_at].rstrip()` and
continues on `text[split_at:].lstrip()`, and the final non-empty remainder is
appended after the loop.  With `max_length ≥ 1` every iteration shortens the
text, so fuel `t.length` is never exhausted. -/
def split_aux (max_length : ℕ) : ℕ → List Char → List (List Char)
  | 0, t => if t.isEmpty then [] else [t]
  | fuel + 1, t =>
      if t.length ≤ max_length then (if t.isEmpty then [] else [t])
      else
        rstrip (t.take (split_point max_length t)) ::
          split_aux max_length fuel (lstrip (t.drop (split_point max_length t)))

/-- `MessageRouter._split_at_boundaries`. -/
def split_at_boundaries (t : List Char) (max_length : ℕ) : List (List Char) :=
  split_aux max_length t.length t

/-- The per-channel chunk ceiling of `MessageRouter._send_chunked`:
`{"whatsapp": 4000, "telegram": 4000, "web": 100_000}.get(channel, 4000)`. -/
def channel_max_length (channel : String) : ℕ :=
  if channel = "whatsapp" then 4000
  else if channel = "telegram" then 4000
  else if channel = "web" then 100000
  else 4000

/-- `MessageRouter._send_chunked`: the list of texts passed to successive
`send_response` calls, in delivery order. -/
def send_chunked (channel : String) (response : List Char) : List (List Char) :=
  let max_length := channel_max_length channel
  if response.length ≤ max_length then [response]
  else split_at_boundaries response max_length

/-- `MessageRouter._is_authorized`: `self._allowed_senders.get(channel)` is
`none` when no allow-list was configured; `if not allowed` also treats an
empty list as "allow all". -/
def is_authorized (allowed : Option (List String)) (sender_id : String) : Bool :=
  match allowed with
  | none => true
  | some l => if l.isEmpty then true else l.contains sender_id

/-- The normalized message type (`InternalMessage`), restricted to the fields
`route` reads. -/
structure InternalMsg where
  channel : String
  sender_id : String
  sender_name : String
  chat_id : String
  session_id : Option String
  text : String
deriving DecidableEq

/-- A persisted conversation turn (row of `conversations`), restricted to the
fields the router and brain write. -/
structure TurnRec where
  session_id : String
  channel : String
  sender_id : String
  role : String
  content : String
deriving DecidableEq

/-- The observable outcome of `MessageRouter.route`: the returned text, the
conversation turns persisted (in write order), the number of audit records
written, and the chunks pushed through the channel adapter. -/
structure RouteResult where
  response : String
  turns : List TurnRec
  audits : ℕ
  sent : List (List Char)
deriving DecidableEq

/-- `MessageRouter.route`.  External collaborators enter as parameters: the
session-id hash (`derive`, for `_derive_session_id`), the brain's response
text, and whether the originating channel adapter reports itself connected.
An unauthorized sender returns the empty string at once, before any turn is
persisted and before the audit log write.  Otherwise the user turn is saved,
the brain is invoked (which saves the assistant turn, since the session id
is always non-empty here), chunks are delivered if connected, and exactly one
audit record is written. -/
def route (allowed : Option (List String)) (msg : InternalMsg)
    (derive : InternalMsg → String) (brain_response : String)
    (connected : Bool) : RouteResult :=
  if !is_authorized allowed msg.sender_id then ⟨"", [], 0, []⟩
  else
    let sid :=
      match msg.session_id with
      | some s => if s = "" then derive msg else s
      | none => derive msg
    let user_turn : TurnRec := ⟨sid, msg.channel, msg.sender_id, "user", msg.text⟩
    let asst_turn : TurnRec := ⟨sid, msg.channel, "assistant", "assistant", brain_response⟩
    ⟨brain_response, [user_turn, asst_turn], 1,
      if connected then send_chunked msg.channel brain_response.toList else []⟩

/-- Rejoin chunks with the separator texts that were stripped at the cut
points (zip-longest concatenation, allowing one trailing separator). -/
def join_sep : List (List Char) → List (List Char) → List Char
  | [], [] => []
  | [], s :: ss => s ++ join_sep [] ss
  | c :: cs, [] => c ++ join_sep cs []
  | c :: cs, s :: ss => c ++ s ++ join_sep cs ss

/- ================= Context assembler ================= -/

/-- A role-tagged content block of the messages array. -/
structure ChatMessage where
  role : String
  content : String
deriving DecidableEq

/-- A memory search hit as consumed by the assembler (content plus the
confidence that came back with the hit). -/
structure MemHit where
  content : String
  confidence : ℚ
deriving DecidableEq

/-- `estimate_tokens`: `len(text) // TOKEN_RATIO` with a ratio of 4. -/
def estimate_tokens (s : String) : ℕ := s.length / 4

/-- The fixed system prompt of `memory/context.py`. -/
def SYSTEM_PROMPT : String :=
  "You are Sanaa AI, an autonomous operations agent managing the Sanaa fintech platform ecosystem.\n\nYour operator is Banks, the founder of Sanaa — a comprehensive fintech platform based in Uganda serving East Africa.\n\nSANAA ECOSYSTEM:\n- cards.sanaa.ug — Card/Identity platform (Laravel 11)\n- fx.sanaa.co — FX Trading platform (Laravel 11)\n- soko.sanaa.ug — Soko 24 Marketplace (Laravel 11)\n- sanaa.co — Main website\n- ai.sanaa.co — This operations dashboard\n- Tech stack: Laravel 11, PostgreSQL, Redis, Filament Admin, Flutter mobile apps\n- Server: Ubuntu Linux VPS (sanaa-vps)\n\nYOUR CAPABILITIES:\n1. Monitor server health (CPU, RAM, Disk, Services, Docker)\n2. Monitor all Sanaa web applications for errors and downtime\n3. Read and triage Banks\x27 email inbox\n4. Execute approved operations (deploy, restart, database queries)\n5. Test web applications (load pages, check forms, verify APIs)\n6. Generate daily operations reports\n7. Monitor connected devices (MacBook, phones)\n8. Analyze Laravel logs for errors and patterns\n9. Search for relevant fintech/tech news\n\nYOUR RULES:\n- ALWAYS explain what you\x27re about to do before doing it\n- For destructive operations (delete, drop, modify configs), ALWAYS require approval\n- Read-only operations (status, logs, tests) can auto-execute\n- Assess severity and notify Banks appropriately\n- Be concise but thorough\n- Think like a senior DevOps engineer + executive assistant\n- When in doubt, ask rather than act\n- Log everything\n"

/-- The `{m['confidence']:.0%}` rendering: percentage rounded to zero decimal
places (Python rounds half to even; ties do not occur in the claims). -/
def format_percent (q : ℚ) : String :=
  toString (round (q * 100) : ℤ) ++ "%"

/-- The "Relevant knowledge from memory" block built by `assemble`, one
bullet per hit, annotated with the confidence percentage when the confidence
value is truthy (non-zero). -/
def render_memories (ms : List MemHit) : String :=
  let lines := ms.map (fun m =>
    "- " ++ m.content ++
      (if m.confidence = 0 then ""
       else " (confidence: " ++ format_percent m.confidence ++ ")"))
  "Relevant knowledge from memory:\n" ++ String.intercalate "\n" lines

/-- The history loop of `assemble`: walk the fetched turns newest-first
(`reversed(history)`), keep a turn while its estimated tokens fit strictly
within the remaining budget, stop at the first turn that does not fit
(`break`), and re-insert kept turns at the front so the result is
chronological. -/
def pick_history (budget : ℤ) : List ChatMessage → List ChatMessage
  | [] => []
  | m :: rest =>
      if (estimate_tokens m.content : ℤ) < budget then
        pick_history (budget - (estimate_tokens m.content : ℤ)) rest ++ [m]
      else []

/-- Step 2 of `assemble`: the relevant-memories block, attempted when more
than 500 budget remains, included when its estimated tokens fit strictly;
returns the (possibly empty) block list and the remaining budget. -/
def memory_step (memories : List MemHit) (b0 : ℤ) : List ChatMessage × ℤ :=
  if b0 > 500 ∧ memories ≠ [] then
    let memory_text := render_memories memories
    if (estimate_tokens memory_text : ℤ) < b0 then
      ([⟨"system", memory_text⟩], b0 - (estimate_tokens memory_text : ℤ))
    else ([], b0)
  else ([], b0)

/-- Step 3 of `assemble`: the infrastructure-knowledge block, attempted when
more than 300 budget remains and the lookup returned a (truthy) string. -/
def knowledge_step (knowledge : Option String) (b1 : ℤ) : List ChatMessage × ℤ :=
  if b1 > 300 then
    match knowledge with
    | some k =>
        if k ≠ "" ∧ (estimate_tokens k : ℤ) < b1 then
          ([⟨"system", k⟩], b1 - (estimate_tokens k : ℤ))
        else ([], b1)
    | none => ([], b1)
  else ([], b1)

/-- Step 4 of `assemble`: the recent-history block, attempted when a session
id was given and more than 500 budget remains. -/
def history_step (history : List ChatMessage) (has_session : Bool) (b2 : ℤ) :
    List ChatMessage :=
  if has_session ∧ b2 > 500 then pick_history b2 history.reverse else []

/-- `ContextAssembler.assemble`.  The memory search results, the
infrastructure-knowledge lookup and the fetched session history (chronological,
as `_get_history` returns it) are parameters, since they come from external
stores; `has_session` is whether a session id was passed.  The budget is an
integer (it may go negative, as in the Python). -/
def assemble (memories : List MemHit) (knowledge : Option String)
    (history : List ChatMessage) (user_message : String)
    (has_session : Bool) (max_tokens : ℕ) : List ChatMessage :=
  let b0 : ℤ := (max_tokens : ℤ) - (estimate_tokens SYSTEM_PROMPT : ℤ)
                  - (estimate_tokens user_message : ℤ) - 500
  let step1 := memory_step memories b0
  let step2 := knowledge_step knowledge step1.2
  let hist := history_step history has_session step2.2
  ⟨"system", SYSTEM_PROMPT⟩ ::
    (step1.1 ++ step2.1 ++ hist ++ [⟨"user", user_message⟩])

/- ================= Tiered LLM brain ================= -/

/-- The complexity-indicating keywords of `LLMBrain._determine_tier`. -/
def complex_keywords : List String :=
  ["analyze", "plan", "review", "audit", "debug", "explain why",
   "architecture", "strategy", "migration", "refactor", "security",
   "write code", "fix", "deploy"]

/-- The simple-operation keywords of `LLMBrain._determine_tier`. -/
def simple_keywords : List String :=
  ["status", "check", "restart", "list", "show", "what is",
   "how many", "uptime", "health"]

/-- Python's substring test `sub in hay`. -/
def contains_sub (sub : List Char) : List Char → Bool
  | [] => sub.isEmpty
  | c :: rest => sub.isPrefixOf (c :: rest) || contains_sub sub rest

/-- Word counting for Python's `len(prompt.split())`: the number of maximal
whitespace-free runs.  The flag records whether the previous character was
inside a word. -/
def word_count_aux : Bool → List Char → ℕ
  | _, [] => 0
  | in_word, c :: rest =>
      if is_space c then word_count_aux false rest
      else (if in_word then 0 else 1) + word_count_aux true rest

/-- `len(prompt.split())`. -/
def word_count (l : List Char) : ℕ := word_count_aux false l

/-- `LLMBrain._determine_tier`: explicit hints map to tiers 1/3; otherwise a
complexity keyword or an estimated token count above 500 selects tier 3, a
simple keyword on a short prompt (estimate below 100) selects tier 1, and
everything else tier 2.  The estimate is `len(prompt.split()) * 1.3`. -/
def determine_tier (prompt : String) (complexity : String) : ℕ :=
  if complexity = "low" then 1
  else if complexity = "high" then 3
  else
    let prompt_lower := prompt.toList.map Char.toLower
    let token_estimate : ℚ := (word_count prompt.toList : ℚ) * 13 / 10
    if complex_keywords.any (fun kw => contains_sub kw.toList prompt_lower)
        || token_estimate > 500 then 3
    else if simple_keywords.any (fun kw => contains_sub kw.toList prompt_lower)
        && token_estimate < 100 then 1
    else 2

/-- The fixed terminal message of `LLMBrain._call_with_failover`. -/
def unavailable_message : String :=
  "All models unavailable. Please try again later."

/-- The candidate sequence attempted by `_call_with_failover`: for each tier
from the starting tier down to 1 (`range(starting_tier, 0, -1)`), the tier's
configured models in order. -/
def tier_candidates (models : ℕ → List String) (starting_tier : ℕ) :
    List (ℕ × String) :=
  ((List.range' 1 starting_tier).reverse).flatMap
    (fun t => (models t).map (fun m => (t, m)))

/-- The try/except failover loop over the flattened candidate sequence: a
successful call returns its text immediately; a failed call (`none`, standing
for any raised exception) moves to the next candidate; exhaustion returns the
fixed unavailability message.  The second component records the candidates
actually attempted, in order. -/
def failover_go (call : ℕ × String → Option String) :
    List (ℕ × String) → String × List (ℕ × String)
  | [] => (unavailable_message, [])
  | c :: rest =>
      match call c with
      | some txt => (txt, [c])
      | none =>
          let r := failover_go call rest
          (r.1, c :: r.2)

/-- `LLMBrain._call_with_failover`, with the model-call collaborator as an
oracle from (tier, model) to an optional response text. -/
def call_with_failover (models : ℕ → List String)
    (call : ℕ × String → Option String) (starting_tier : ℕ) :
    String × List (ℕ × String) :=
  failover_go call (tier_candidates models starting_tier)

/- =====================================================================
   Theorems
   ===================================================================== -/

/- ---------- Helper lemmas: failover ---------- -/

theorem failover_go_all_fail (call : ℕ × String → Option String) :
    ∀ cs : List (ℕ × String), (∀ c ∈ cs, call c = none) →
    failover_go call cs = (unavailable_message, cs) := by
  intro cs
  induction cs with
  | nil => intro _; rfl
  | cons c rest ih =>
      intro h
      have hc : call c = none := h c (by simp)
      have hrest := ih (fun c' hc' => h c' (by simp [hc']))
      simp [failover_go, hc, hrest]

theorem failover_go_first_success (call : ℕ × String → Option String)
    (c : ℕ × String) (txt : String) (hc : call c = some txt) :
    ∀ (pre post : List (ℕ × String)), (∀ c' ∈ pre, call c' = none) →
    failover_go call (pre ++ c :: post) = (txt, pre ++ [c]) := by
  intro pre
  induction pre with
  | nil => intro post _; simp [failover_go, hc]
  | cons p rest ih =>
      intro post h
      have hp : call p = none := h p (by simp)
      have hrest := ih post (fun c' hc' => h c' (by simp [hc']))
      simp [failover_go, hp, hrest]

/- ---------- C5 ---------- -/

/-- C5: a message on a channel with a non-empty allow-list that does not
contain the sender id yields the empty string from `route`, with no persisted
turn, no audit record, and nothing sent through the channel; and a channel
with an unset or empty allow-list authorizes every sender. -/
theorem claim_C5_unauthorized_sender :
    (∀ (l : List String) (msg : InternalMsg) (derive : InternalMsg → String)
       (brain_response : String) (connected : Bool),
       l ≠ [] → msg.sender_id ∉ l →
       route (some l) msg derive brain_response connected =
         ⟨"", [], 0, []⟩)
    ∧ (∀ sender_id : String, is_authorized none sender_id = true
        ∧ is_authorized (some []) sender_id = true) := by
  constructor
  · intro l msg derive brain_response connected hne hnm
    have hempty : l.isEmpty = false := by
      cases l with
      | nil => exact absurd rfl hne
      | cons a t => rfl
    have hcont : l.contains msg.sender_id = false := by simpa using hnm
    simpa [route, is_authorized, hempty, hcont] using hnm
  · intro sender_id
    exact ⟨rfl, rfl⟩

/-- Witness for C5 at a concrete unauthorized message. -/
theorem claim_C5_unauthorized_sender_witness :
    route (some ["alice"])
        ⟨"telegram", "bob", "Bob", "bob", none, "hi"⟩
        (fun _ => "sess") "resp" true = ⟨"", [], 0, []⟩
    ∧ is_authorized none "bob" = true
    ∧ is_authorized (some []) "bob" = true := by
  refine ⟨?_, (claim_C5_unauthorized_sender.2 "bob").1,
    (claim_C5_unauthorized_sender.2 "bob").2⟩
  exact claim_C5_unauthorized_sender.1 ["alice"]
    ⟨"telegram", "bob", "Bob", "bob", none, "hi"⟩
    (fun _ => "sess") "resp" true (by simp) (by simp)

/- ---------- C8 ---------- -/

/-- C8: if every candidate model in the starting tier and all lower tiers
fails, `_call_with_failover` returns the fixed unavailability message after
attempting every candidate (and, being a total function, raises nothing);
and as soon as one candidate succeeds, its text is returned with no further
candidate attempted. -/
theorem claim_C8_failover :
    (∀ (models : ℕ → List String) (call : ℕ × String → Option String)
       (starting_tier : ℕ),
       (∀ c ∈ tier_candidates models starting_tier, call c = none) →
       call_with_failover models call starting_tier =
         (unavailable_message, tier_candidates models starting_tier))
    ∧ (∀ (models : ℕ → List String) (call : ℕ × String → Option String)
         (starting_tier : ℕ) (pre post : List (ℕ × String))
         (c : ℕ × String) (txt : String),
         tier_candidates models starting_tier = pre ++ c :: post →
         (∀ c' ∈ pre, call c' = none) → call c = some txt →
         call_with_failover models call starting_tier = (txt, pre ++ [c])) := by
  constructor
  · intro models call starting_tier h
    exact failover_go_all_fail call _ h
  · intro models call starting_tier pre post c txt hsplit hpre hc
    unfold call_with_failover
    rw [hsplit]
    exact failover_go_first_success call c txt hc pre post hpre

/- ---------- C1 ---------- -/

/-- Counterexample for C1 as stated: `store` writes the caller-supplied
confidence without clamping, so storing with confidence 1.5 into an empty
store leaves a record whose confidence is outside [0, 1]. -/
theorem claim_C1_counterexample :
    ∃ r ∈ (store [] [] [] false false false 1 "x" "fact" (3/2) none 0).records,
      ¬(r.confidence ≤ 1) := by
  refine ⟨⟨1, "x", "fact", 3/2, false, none, none, 0, 0, false⟩, ?_, by norm_num⟩
  show _ ∈ ([] ++ [_] : List Mem)
  simp [store, search, search_results, track_access]

/-- C1 (amended): the duplicate-detection bump (`LEAST(confidence + 0.1, 1.0)`)
and prune's decay (`* 0.95`) keep every confidence inside [0, 1] whenever it
already was; but `store` and `update_confidence` write the caller-supplied
value verbatim, so after those operations the invariant holds only when the
supplied value itself lies in [0, 1]. -/
theorem claim_C1_confidence_range :
    (∀ (now : ℤ) (mid : ℕ) (records : List Mem),
       (∀ r ∈ records, 0 ≤ r.confidence ∧ r.confidence ≤ 1) →
       ∀ r ∈ bump_confidence now mid records,
         0 ≤ r.confidence ∧ r.confidence ≤ 1)
    ∧ (∀ (now : ℤ) (records : List Mem),
       (∀ r ∈ records, 0 ≤ r.confidence ∧ r.confidence ≤ 1) →
       ∀ r ∈ (prune now records).1, 0 ≤ r.confidence ∧ r.confidence ≤ 1)
    ∧ (∀ (mid : ℕ) (c : ℚ) (records : List Mem) (r : Mem),
       r ∈ records → r.id = mid →
       { r with confidence := c } ∈ update_confidence mid c records) := by
  refine ⟨?_, ?_, ?_⟩
  · intro now mid records hinv r hr
    rcases List.mem_map.1 hr with ⟨r0, hr0, heq⟩
    rcases hinv r0 hr0 with ⟨h0, h1⟩
    by_cases hid : r0.id = mid
    · subst heq
      simp only [hid, if_pos]
      constructor
      · exact le_min (by linarith) (by norm_num)
      · exact min_le_right _ _
    · subst heq
      simp only [hid, if_neg, ite_false]
      exact ⟨h0, h1⟩
  · intro now records hinv r hr
    simp only [prune] at hr
    rcases List.mem_filter.1 hr with ⟨hr2, -⟩
    rcases List.mem_map.1 hr2 with ⟨r1, hr1, heq⟩
    rcases List.mem_filter.1 hr1 with ⟨hr0, -⟩
    rcases hinv r1 hr0 with ⟨h0, h1⟩
    by_cases hd : decay_matches now r1 = true
    · subst heq
      simp only [hd, if_pos]
      constructor
      · positivity
      · calc r1.confidence * (95/100) ≤ 1 * (95/100) := by nlinarith
          _ ≤ 1 := by norm_num
    · subst heq
      simp only [hd, ite_false]
      exact ⟨h0, h1⟩
  · intro mid c records r hr hid
    refine List.mem_map.2 ⟨r, hr, ?_⟩
    simp [hid]

/-- Witness for C1's amended theorem at concrete records. -/
theorem claim_C1_confidence_range_witness :
    (∀ r ∈ bump_confidence 7 1 [⟨1, "x", "fact", 1/2, false, none, none, 0, 0, false⟩],
       0 ≤ r.confidence ∧ r.confidence ≤ 1)
    ∧ (∀ r ∈ (prune 7 [⟨1, "x", "fact", 1/2, false, none, none, 0, 0, false⟩]).1,
       0 ≤ r.confidence ∧ r.confidence ≤ 1)
    ∧ ({ (⟨1, "x", "fact", 1/2, false, none, none, 0, 0, false⟩ : Mem) with
          confidence := 3/2 } ∈
        update_confidence 1 (3/2) [⟨1, "x", "fact", 1/2, false, none, none, 0, 0, false⟩]) := by
  have hinv : ∀ r ∈ [(⟨1, "x", "fact", 1/2, false, none, none, 0, 0, false⟩ : Mem)],
      0 ≤ r.confidence ∧ r.confidence ≤ 1 := by
    intro r hr
    simp only [List.mem_singleton] at hr
    subst hr
    norm_num
  exact ⟨claim_C1_confidence_range.1 7 1 _ hinv,
    claim_C1_confidence_range.2.1 7 _ hinv,
    claim_C1_confidence_range.2.2 1 (3/2) _ _ (by simp) rfl⟩

/- ---------- C3 ---------- -/

/-- Counterexample for C3 as stated: the first DELETE of `prune` removes
expired records with no `verified` guard, so a verified record whose expiry
has passed is deleted by `prune`. -/
theorem claim_C3_counterexample :
    (⟨1, "m", "fact", 1, true, some (-1), none, -100, 0, false⟩ : Mem).verified = true
    ∧ (prune 0 [⟨1, "m", "fact", 1, true, some (-1), none, -100, 0, false⟩]).1 = [] := by
  constructor
  · rfl
  · simp [prune, is_expired]

/-- C3 (amended): a verified record whose expiry has not passed is left
untouched by `prune` — it is neither decayed nor deleted; expired records,
however, are deleted by the first DELETE regardless of the verified flag. -/
theorem claim_C3_verified_exempt (now : ℤ) (records : List Mem) (r : Mem)
    (hr : r ∈ records) (hv : r.verified = true)
    (hexp : ∀ t, r.expires_at = some t → ¬ t < now) :
    r ∈ (prune now records).1 := by
  have hne : is_expired now r = false := by
    unfold is_expired
    cases he : r.expires_at with
    | none => rfl
    | some t => simpa using hexp t he
  have hnd : decay_matches now r = false := by
    unfold decay_matches
    simp [hv]
  have hnp : prune_delete_matches now r = false := by
    unfold prune_delete_matches
    simp [hv]
  simp only [prune]
  refine List.mem_filter.2 ⟨?_, by simp [hnp]⟩
  refine List.mem_map.2 ⟨r, ?_, by simp [hnd]⟩
  exact List.mem_filter.2 ⟨hr, by simp [hne]⟩

/-- Witness for C3's amended theorem: a verified record with no expiry
survives `prune` unchanged. -/
theorem claim_C3_verified_exempt_witness :
    (⟨1, "m", "fact", 1/2, true, none, some (-99999999), -99999999, 0, false⟩ : Mem) ∈
      (prune 5 [⟨1, "m", "fact", 1/2, true, none, some (-99999999), -99999999, 0, false⟩]).1 := by
  exact claim_C3_verified_exempt 5 _ _ (by simp) rfl (by simp)

/- ---------- C10 ---------- -/

/-- C10: when no embedding provider is available or the semantic search
failed, `search` degrades to the lexical results, which carry no
`relevance_score`; consequently `store` never takes the duplicate-bump path
in that mode and always inserts a new record — even when a record with
identical content already exists. -/
theorem claim_C10_lexical_mode :
    (∀ (records : List Mem) (vector_ids fts_ids : List ℕ) (lim : ℕ)
       (min_conf : ℚ) (has_vectors search_ok : Bool),
       (has_vectors && search_ok) = false →
       ∀ h ∈ search_results records vector_ids fts_ids
           (has_vectors && search_ok) lim min_conf,
         h.relevance_score = none)
    ∧ (∀ (records : List Mem) (vector_ids fts_ids : List ℕ)
         (has_vectors search_ok embed_ok : Bool) (new_id : ℕ)
         (content category : String) (c0 : ℚ) (exp : Option ℤ) (now : ℤ),
         (has_vectors && search_ok) = false →
         (store records vector_ids fts_ids has_vectors search_ok embed_ok
            new_id content category c0 exp now).inserted = true
         ∧ (store records vector_ids fts_ids has_vectors search_ok embed_ok
              new_id content category c0 exp now).records.length
             = records.length + 1) := by
  have hres : ∀ (records : List Mem) (vector_ids fts_ids : List ℕ) (lim : ℕ)
      (min_conf : ℚ),
      ∀ h ∈ search_results records vector_ids fts_ids false lim min_conf,
        h.relevance_score = none := by
    intro records vector_ids fts_ids lim min_conf h hh
    simp only [search_results, if_neg Bool.false_ne_true] at hh
    rcases List.mem_map.1 (List.mem_of_mem_filter (List.mem_of_mem_take hh)) with
      ⟨rid, -, heq⟩
    rw [← heq]
  constructor
  · intro records vector_ids fts_ids lim min_conf hv so hfalse h hh
    rw [hfalse] at hh
    exact hres records vector_ids fts_ids lim min_conf h hh
  · intro records vector_ids fts_ids hv so embed_ok new_id content category c0 exp now hfalse
    have hlen1 : ∀ (res : List Hit),
        (if res.isEmpty then records
         else track_access now (res.map (fun h => h.id)) records).length
          = records.length := by
      intro res
      by_cases he : res.isEmpty
      · simp [he]
      · simp [he, track_access]
    unfold store
    simp only [search, hfalse]
    cases hcase : search_results records vector_ids fts_ids false 1 0 with
    | nil =>
        constructor
        · rfl
        · simp only [List.length_append, List.length_singleton]
          rw [hlen1]
    | cons top rest =>
        have hnone : top.relevance_score = none :=
          hres records vector_ids fts_ids 1 0 top (by rw [hcase]; simp)
        have hcond : ¬ ((top.relevance_score.getD 0) > 3/100) := by
          rw [hnone]
          norm_num
        simp only [hcond, if_false, ite_false]
        constructor
        · trivial
        · simp only [List.length_append, List.length_singleton]
          rw [hlen1]

/-- Witness for C10: with no vectors, storing content identical to an
existing record still inserts a second record. -/
theorem claim_C10_lexical_mode_witness :
    (store [⟨1, "dup", "fact", 1/2, false, none, none, 0, 0, false⟩] [] [1]
        false false false 2 "dup" "fact" (1/2) none 9).inserted = true
    ∧ (store [⟨1, "dup", "fact", 1/2, false, none, none, 0, 0, false⟩] [] [1]
        false false false 2 "dup" "fact" (1/2) none 9).records.length = 2
    ∧ (∀ h ∈ search_results [⟨1, "dup", "fact", 1/2, false, none, none, 0, 0, false⟩]
          [] [1] (false && false) 1 0, h.relevance_score = none) := by
  refine ⟨?_, ?_, ?_⟩
  · exact (claim_C10_lexical_mode.2 _ [] [1] false false false 2 "dup" "fact"
      (1/2) none 9 rfl).1
  · exact (claim_C10_lexical_mode.2 _ [] [1] false false false 2 "dup" "fact"
      (1/2) none 9 rfl).2
  · exact claim_C10_lexical_mode.1 _ [] [1] 1 0 false false rfl

/- ---------- Helper lemmas: RRF score dictionary ---------- -/

theorem lookup_score_bump_self (rid : ℕ) (v : ℚ) :
    ∀ sc : List (ℕ × ℚ),
      lookup_score (bump_score rid v sc) rid = lookup_score sc rid + v := by
  intro sc
  induction sc with
  | nil => simp [bump_score, lookup_score, List.find?]
  | cons p rest ih =>
      obtain ⟨r, s⟩ := p
      by_cases h : r = rid
      · subst h
        simp [bump_score, lookup_score, List.find?]
      · simp only [bump_score, if_neg h]
        simpa [lookup_score, List.find?, h] using ih

theorem lookup_score_bump_ne (rid : ℕ) (v : ℚ) (rid2 : ℕ) (h : rid2 ≠ rid) :
    ∀ sc : List (ℕ × ℚ),
      lookup_score (bump_score rid v sc) rid2 = lookup_score sc rid2 := by
  intro sc
  induction sc with
  | nil => simp [bump_score, lookup_score, List.find?, Ne.symm h]
  | cons p rest ih =>
      obtain ⟨r, s⟩ := p
      by_cases hr : r = rid
      · subst hr
        simp [bump_score, lookup_score, List.find?, Ne.symm h]
      · by_cases hr2 : r = rid2
        · subst hr2
          simp [bump_score, lookup_score, List.find?, hr]
        · simp only [bump_score, if_neg hr]
          simpa [lookup_score, List.find?, hr2] using ih

theorem bump_score_keys (rid : ℕ) (v : ℚ) :
    ∀ sc : List (ℕ × ℚ),
      (bump_score rid v sc).map Prod.fst =
        if rid ∈ sc.map Prod.fst then sc.map Prod.fst
        else sc.map Prod.fst ++ [rid] := by
  intro sc
  induction sc with
  | nil => simp [bump_score]
  | cons p rest ih =>
      obtain ⟨r, s⟩ := p
      by_cases h : r = rid
      · subst h
        simp [bump_score]
      · have hne : rid ≠ r := fun he => h (he ▸ rfl)
        by_cases hm : rid ∈ rest.map Prod.fst
        · simp [bump_score, h, ih, hm, hne]
        · simp [bump_score, h, ih, hm, hne]

theorem bump_score_keys_nodup (rid : ℕ) (v : ℚ) (sc : List (ℕ × ℚ))
    (h : (sc.map Prod.fst).Nodup) :
    ((bump_score rid v sc).map Prod.fst).Nodup := by
  rw [bump_score_keys]
  by_cases hm : rid ∈ sc.map Prod.fst
  · simpa [hm] using h
  · simp only [hm, if_false, ite_false]
    simpa [List.nodup_append, hm] using h

theorem rrf_pass_keys_nodup (k : ℕ) :
    ∀ (l : List ℕ) (rank : ℕ) (sc : List (ℕ × ℚ)),
      (sc.map Prod.fst).Nodup →
      ((rrf_pass k rank l sc).map Prod.fst).Nodup := by
  intro l
  induction l with
  | nil => intro rank sc h; simpa [rrf_pass] using h
  | cons a rest ih =>
      intro rank sc h
      exact ih (rank + 1) _ (bump_score_keys_nodup a _ sc h)

theorem rrf_scores_keys_nodup (v f : List ℕ) (k : ℕ) :
    ((rrf_scores v f k).map Prod.fst).Nodup := by
  exact rrf_pass_keys_nodup k f 0 _ (rrf_pass_keys_nodup k v 0 [] (by simp))

theorem rrf_pass_lookup_not_mem (k rid : ℕ) :
    ∀ (l : List ℕ) (rank : ℕ) (sc : List (ℕ × ℚ)), rid ∉ l →
      lookup_score (rrf_pass k rank l sc) rid = lookup_score sc rid := by
  intro l
  induction l with
  | nil => intro rank sc _; rfl
  | cons a rest ih =>
      intro rank sc h
      have ha : rid ≠ a := fun he => h (he ▸ List.mem_cons_self a rest)
      have hrest : rid ∉ rest := fun hm => h (List.mem_cons_of_mem a hm)
      simp only [rrf_pass]
      rw [ih (rank + 1) _ hrest, lookup_score_bump_ne a _ rid ha]

theorem rrf_pass_lookup_mem (k rid : ℕ) :
    ∀ (l : List ℕ), l.Nodup → rid ∈ l →
    ∀ (rank : ℕ) (sc : List (ℕ × ℚ)),
      lookup_score (rrf_pass k rank l sc) rid =
        lookup_score sc rid
          + 1 / ((k : ℚ) + (rank : ℚ) + (l.indexOf rid : ℚ) + 1) := by
  intro l
  induction l with
  | nil => intro _ h; exact absurd h (List.not_mem_nil rid)
  | cons a rest ih =>
      intro hnd hm rank sc
      rcases List.nodup_cons.1 hnd with ⟨hna, hndr⟩
      by_cases ha : rid = a
      · subst ha
        have hnotr : rid ∉ rest := hna
        simp only [rrf_pass]
        rw [rrf_pass_lookup_not_mem k rid rest (rank + 1) _ hnotr,
          lookup_score_bump_self, List.indexOf_cons_self]
        norm_num
      · have hmr : rid ∈ rest := by
          rcases List.mem_cons.1 hm with h1 | h2
          · exact absurd h1 ha
          · exact h2
        simp only [rrf_pass]
        rw [ih hndr hmr (rank + 1) _, lookup_score_bump_ne a _ rid ha,
          List.indexOf_cons_ne rest (Ne.symm ha)]
        push_cast
        ring_nf

theorem rrf_scores_lookup (k : ℕ) (v f : List ℕ) (hv : v.Nodup) (hf : f.Nodup)
    (rid : ℕ) :
    lookup_score (rrf_scores v f k) rid = contrib k v rid + contrib k f rid := by
  unfold rrf_scores
  have hbase : lookup_score (rrf_pass k 0 v []) rid = contrib k v rid := by
    by_cases hvm : rid ∈ v
    · rw [rrf_pass_lookup_mem k rid v hv hvm 0 []]
      simp only [contrib, if_pos hvm, lookup_score, List.find?]
      norm_num
    · rw [rrf_pass_lookup_not_mem k rid v 0 [] hvm]
      simp [contrib, hvm, lookup_score, List.find?]
  by_cases hfm : rid ∈ f
  · rw [rrf_pass_lookup_mem k rid f hf hfm 0 _, hbase]
    simp only [contrib, if_pos hfm]
    norm_num
  · rw [rrf_pass_lookup_not_mem k rid f 0 _ hfm, hbase]
    simp [contrib, hfm]

theorem lookup_eq_of_mem_nodup :
    ∀ (sc : List (ℕ × ℚ)), (sc.map Prod.fst).Nodup →
    ∀ (rid : ℕ) (q : ℚ), (rid, q) ∈ sc → lookup_score sc rid = q := by
  intro sc
  induction sc with
  | nil => intro _ rid q h; exact absurd h (List.not_mem_nil _)
  | cons p rest ih =>
      obtain ⟨r, s⟩ := p
      intro hnd rid q hm
      rw [List.map_cons] at hnd
      rcases List.nodup_cons.1 hnd with ⟨hnr, hndr⟩
      rcases List.mem_cons.1 hm with h1 | h2
      · rw [Prod.mk.injEq] at h1
        obtain ⟨he1, he2⟩ := h1
        subst he1; subst he2
        simp [lookup_score, List.find?]
      · have hr : r ≠ rid := by
          intro he
          subst he
          exact hnr (List.mem_map.2 ⟨(r, q), h2, rfl⟩)
        have hlk : lookup_score rest rid = q := ih hndr rid q h2
        simpa [lookup_score, List.find?, hr] using hlk

/- ---------- Helper lemmas: stable descending sort ---------- -/

theorem insert_desc_mem (x : ℕ × ℚ) :
    ∀ (l : List (ℕ × ℚ)) (z : ℕ × ℚ), z ∈ insert_desc x l ↔ z = x ∨ z ∈ l := by
  intro l
  induction l with
  | nil => intro z; simp [insert_desc]
  | cons y ys ih =>
      intro z
      by_cases h : y.2 ≤ x.2
      · simp [insert_desc, h]
      · simp only [insert_desc, if_neg h, List.mem_cons, ih]
        tauto

theorem insert_desc_perm (x : ℕ × ℚ) :
    ∀ l : List (ℕ × ℚ), (insert_desc x l).Perm (x :: l) := by
  intro l
  induction l with
  | nil => simp [insert_desc]
  | cons y ys ih =>
      by_cases h : y.2 ≤ x.2
      · simp [insert_desc, h]
      · simp only [insert_desc, if_neg h]
        exact (ih.cons y).trans (List.Perm.swap x y ys)

theorem sort_desc_perm (l : List (ℕ × ℚ)) : (sort_desc l).Perm l := by
  induction l with
  | nil => simp [sort_desc]
  | cons x xs ih =>
      have : sort_desc (x :: xs) = insert_desc x (sort_desc xs) := rfl
      rw [this]
      exact (insert_desc_perm x (sort_desc xs)).trans (ih.cons x)

theorem insert_desc_pairwise (x : ℕ × ℚ) :
    ∀ l : List (ℕ × ℚ), l.Pairwise (fun a b => b.2 ≤ a.2) →
      (insert_desc x l).Pairwise (fun a b => b.2 ≤ a.2) := by
  intro l
  induction l with
  | nil => intro _; simp [insert_desc]
  | cons y ys ih =>
      intro h
      rcases List.pairwise_cons.1 h with ⟨hy, hys⟩
      by_cases hle : y.2 ≤ x.2
      · simp only [insert_desc, if_pos hle]
        refine List.pairwise_cons.2 ⟨?_, h⟩
        intro z hz
        rcases List.mem_cons.1 hz with h1 | h2
        · subst h1; exact hle
        · exact le_trans (hy z h2) hle
      · simp only [insert_desc, if_neg hle]
        refine List.pairwise_cons.2 ⟨?_, ih hys⟩
        intro z hz
        rcases (insert_desc_mem x ys z).1 hz with h1 | h2
        · subst h1; exact le_of_lt (not_le.1 hle)
        · exact hy z h2

theorem filter_insert_desc (q : ℚ) (x : ℕ × ℚ) :
    ∀ l : List (ℕ × ℚ),
      (insert_desc x l).filter (fun p => decide (p.2 = q)) =
        if x.2 = q then x :: l.filter (fun p => decide (p.2 = q))
        else l.filter (fun p => decide (p.2 = q)) := by
  intro l
  induction l with
  | nil =>
      by_cases hx : x.2 = q <;> simp [insert_desc, List.filter_cons, hx]
  | cons y ys ih =>
      by_cases hc : y.2 ≤ x.2
      · simp only [insert_desc, if_pos hc, List.filter_cons]
        by_cases hx : x.2 = q <;> simp [hx, List.filter_cons]
      · simp only [insert_desc, if_neg hc, List.filter_cons]
        by_cases hy : y.2 = q
        · have hx : ¬ x.2 = q := fun hxq => hc (le_of_eq (hy.trans hxq.symm))
          simp [hy, hx, ih]
        · by_cases hx : x.2 = q <;> simp [hy, hx, ih]

theorem sort_desc_stable (q : ℚ) :
    ∀ l : List (ℕ × ℚ),
      (sort_desc l).filter (fun p => decide (p.2 = q)) =
        l.filter (fun p => decide (p.2 = q)) := by
  intro l
  induction l with
  | nil => rfl
  | cons x xs ih =>
      have hs : sort_desc (x :: xs) = insert_desc x (sort_desc xs) := rfl
      rw [hs, filter_insert_desc, List.filter_cons]
      by_cases hx : x.2 = q <;> simp [hx, ih]

theorem sort_desc_pairwise (l : List (ℕ × ℚ)) :
    (sort_desc l).Pairwise (fun a b => b.2 ≤ a.2) := by
  induction l with
  | nil => simp [sort_desc]
  | cons x xs ih => exact insert_desc_pairwise x (sort_desc xs) ih

/- ---------- C2 ---------- -/

/-- Counterexample for C2's concrete example: in the lexical list [B, D, A]
(A=1, B=2, C=3, D=4) the id A sits at 0-based rank 2, so its lexical
contribution is 1/63, not the claimed 1/62; A's combined score is
1/61 + 1/63 ≠ 1/61 + 1/62, there is no A ≈ B tie, and the merged order is
B, A, D, C — not A, B, D, C. -/
theorem claim_C2_counterexample :
    lookup_score (rrf_scores [1, 2, 3] [2, 4, 1] 60) 1 = 1/61 + 1/63
    ∧ ((1:ℚ)/61 + 1/63) ≠ 1/61 + 1/62
    ∧ (rrf_merge [1, 2, 3] [2, 4, 1] 60).map Prod.fst = [2, 1, 4, 3] := by
  refine ⟨?_, by norm_num, ?_⟩
  · norm_num [rrf_scores, rrf_pass, bump_score, lookup_score, List.find?]
  · norm_num [rrf_merge, rrf_scores, rrf_pass, bump_score, sort_desc,
      insert_desc, List.foldr]

/-- C2 (amended): `_rrf_merge` assigns every record id the combined score
`Σ 1/(k + rank + 1)` over the lists in which it appears (0-based ranks), and
returns the entries sorted by descending combined score, stably: for every
score value, the entries carrying it appear in the output in their score
dictionary (insertion) order — witnessed by the genuine tie
vector [5, 6] / lexical [6, 5], where both ids score 1/61 + 1/62 and the
output keeps insertion order 5, 6.  On the claim's literal lists [A,B,C] and
[B,D,A] (A=1, B=2, C=3, D=4) with k = 60 the scores are A: 1/61 + 1/63,
B: 1/62 + 1/61, C: 1/63, D: 1/62 — no A ≈ B tie — and the output order is
B, A, D, C. -/
theorem claim_C2_rrf_merge (k : ℕ) (v f : List ℕ) (hv : v.Nodup) (hf : f.Nodup) :
    (∀ rid, lookup_score (rrf_scores v f k) rid =
      contrib k v rid + contrib k f rid)
    ∧ (rrf_merge v f k).Pairwise (fun a b => b.2 ≤ a.2)
    ∧ (rrf_merge v f k).Perm (rrf_scores v f k)
    ∧ (∀ q : ℚ, (rrf_merge v f k).filter (fun p => decide (p.2 = q)) =
        (rrf_scores v f k).filter (fun p => decide (p.2 = q)))
    ∧ (∀ p ∈ rrf_merge v f k, p.2 = contrib k v p.1 + contrib k f p.1)
    ∧ rrf_merge [1, 2, 3] [2, 4, 1] 60 =
        [(2, 1/62 + 1/61), (1, 1/61 + 1/63), (4, 1/62), (3, 1/63)]
    ∧ rrf_merge [5, 6] [6, 5] 60 =
        [(5, 1/61 + 1/62), (6, 1/62 + 1/61)] := by
  refine ⟨rrf_scores_lookup k v f hv hf, sort_desc_pairwise _, sort_desc_perm _,
    fun q => sort_desc_stable q _, ?_, ?_, ?_⟩
  · intro p hp
    have hmem : p ∈ rrf_scores v f k := (sort_desc_perm _).mem_iff.1 hp
    have hlk : lookup_score (rrf_scores v f k) p.1 = p.2 :=
      lookup_eq_of_mem_nodup _ (rrf_scores_keys_nodup v f k) p.1 p.2
        (by rw [Prod.mk.eta]; exact hmem)
    rw [← hlk, rrf_scores_lookup k v f hv hf]
  · norm_num [rrf_merge, rrf_scores, rrf_pass, bump_score, sort_desc,
      insert_desc, List.foldr]
  · norm_num [rrf_merge, rrf_scores, rrf_pass, bump_score, sort_desc,
      insert_desc, List.foldr]

/-- Witness for C2's amended theorem at the claim's literal lists, including
the stability conjunct at the tied score 1/61 + 1/62 of the tie example. -/
theorem claim_C2_rrf_merge_witness :
    lookup_score (rrf_scores [1, 2, 3] [2, 4, 1] 60) 1 =
      contrib 60 [1, 2, 3] 1 + contrib 60 [2, 4, 1] 1
    ∧ rrf_merge [1, 2, 3] [2, 4, 1] 60 =
        [(2, 1/62 + 1/61), (1, 1/61 + 1/63), (4, 1/62), (3, 1/63)]
    ∧ rrf_merge [5, 6] [6, 5] 60 = [(5, 1/61 + 1/62), (6, 1/62 + 1/61)]
    ∧ (rrf_merge [5, 6] [6, 5] 60).filter
        (fun p => decide (p.2 = 1/61 + 1/62)) =
      (rrf_scores [5, 6] [6, 5] 60).filter
        (fun p => decide (p.2 = 1/61 + 1/62)) := by
  have h := claim_C2_rrf_merge 60 [1, 2, 3] [2, 4, 1] (by decide) (by decide)
  have h2 := claim_C2_rrf_merge 60 [5, 6] [6, 5] (by decide) (by decide)
  exact ⟨h.1 1, h.2.2.2.2.2.1, h2.2.2.2.2.2.2, h2.2.2.2.1 (1/61 + 1/62)⟩

/- ---------- Helper lemmas: chunk splitting ---------- -/

theorem rfind_sub_some {t sub : List Char} {stop i : ℕ}
    (h : rfind_sub t sub stop = some i) :
    (t.drop i).take sub.length = sub := by
  unfold rfind_sub at h
  have hp := @List.find?_some ℕ (fun j => (t.drop j).take sub.length == sub) i
    ((List.range (stop + 1 - sub.length)).reverse) h
  exact eq_of_beq hp

theorem rfind_sub_none_of_not_mem {t sub : List Char} {ch : Char} (stop : ℕ)
    (hch : ch ∈ sub) (hnm : ch ∉ t) : rfind_sub t sub stop = none := by
  cases hfind : rfind_sub t sub stop with
  | none => rfl
  | some i =>
      exfalso
      have heq := rfind_sub_some hfind
      have hmem : ch ∈ (t.drop i).take sub.length := by rw [heq]; exact hch
      exact hnm (List.mem_of_mem_drop (List.mem_of_mem_take hmem))

theorem not_mem_of_no_space {t : List Char} (hns : ∀ c ∈ t, is_space c = false)
    {ch : Char} (hsp : is_space ch = true) : ch ∉ t := by
  intro hm
  rw [hns ch hm] at hsp
  exact Bool.false_ne_true hsp

theorem split_point_no_ws {t : List Char} (m : ℕ)
    (hns : ∀ c ∈ t, is_space c = false) : split_point m t = m := by
  unfold split_point
  rw [rfind_sub_none_of_not_mem m (show '\n' ∈ ['\n', '\n'] by simp)
      (not_mem_of_no_space hns (by decide)),
    rfind_sub_none_of_not_mem m (show '\n' ∈ ['\n'] by simp)
      (not_mem_of_no_space hns (by decide)),
    rfind_sub_none_of_not_mem m (show ' ' ∈ ['.', ' '] by simp)
      (not_mem_of_no_space hns (by decide)),
    rfind_sub_none_of_not_mem m (show ' ' ∈ [' '] by simp)
      (not_mem_of_no_space hns (by decide))]

theorem dropWhile_eq_self_of_no_match {p : Char → Bool} {l : List Char}
    (h : ∀ c ∈ l, p c = false) : l.dropWhile p = l := by
  cases l with
  | nil => rfl
  | cons c rest => simp [List.dropWhile_cons, h c (by simp)]

theorem lstrip_no_ws {l : List Char} (h : ∀ c ∈ l, is_space c = false) :
    lstrip l = l :=
  dropWhile_eq_self_of_no_match h

theorem rstrip_no_ws {l : List Char} (h : ∀ c ∈ l, is_space c = false) :
    rstrip l = l := by
  unfold rstrip
  rw [dropWhile_eq_self_of_no_match (fun c hc => h c (List.mem_reverse.1 hc)),
    List.reverse_reverse]

theorem rstrip_decomp (l : List Char) :
    ∃ w, l = rstrip l ++ w ∧ ∀ c ∈ w, is_space c = true := by
  refine ⟨(l.reverse.takeWhile is_space).reverse, ?_, ?_⟩
  · unfold rstrip
    rw [← List.reverse_append, List.takeWhile_append_dropWhile,
      List.reverse_reverse]
  · intro c hc
    exact List.mem_takeWhile_imp (List.mem_reverse.1 hc)

theorem lstrip_decomp (l : List Char) :
    ∃ w, l = w ++ lstrip l ∧ ∀ c ∈ w, is_space c = true := by
  refine ⟨l.takeWhile is_space, (List.takeWhile_append_dropWhile is_space l).symm,
    ?_⟩
  intro c hc
  exact List.mem_takeWhile_imp hc

theorem split_point_zero {m : ℕ} (hm : 1 ≤ m) {t : List Char}
    (h0 : split_point m t = 0) :
    ∃ c rest, t = c :: rest ∧ is_space c = true := by
  have head_case : ∀ (sub : List Char) (c0 : Char) (tl : List Char),
      sub = c0 :: tl → (t.drop 0).take sub.length = sub →
      ∃ rest, t = c0 :: rest := by
    intro sub c0 tl hsub heq
    subst hsub
    rw [List.drop_zero] at heq
    cases t with
    | nil => simp at heq
    | cons a r =>
        rw [List.length_cons, List.take_succ_cons] at heq
        injection heq with h1 h2
        exact ⟨r, by rw [h1]⟩
  unfold split_point at h0
  cases h1 : rfind_sub t ['\n', '\n'] m with
  | some i =>
      rw [h1] at h0
      dsimp only at h0
      subst h0
      obtain ⟨rest, ht⟩ := head_case ['\n', '\n'] '\n' ['\n'] rfl
        (rfind_sub_some h1)
      exact ⟨'\n', rest, ht, by decide⟩
  | none =>
    rw [h1] at h0
    dsimp only at h0
    cases h2 : rfind_sub t ['\n'] m with
    | some i =>
        rw [h2] at h0
        dsimp only at h0
        subst h0
        obtain ⟨rest, ht⟩ := head_case ['\n'] '\n' [] rfl
          (rfind_sub_some h2)
        exact ⟨'\n', rest, ht, by decide⟩
    | none =>
      rw [h2] at h0
      dsimp only at h0
      cases h3 : rfind_sub t ['.', ' '] m with
      | some i =>
          rw [h3] at h0
          dsimp only at h0
          exact absurd h0 (Nat.succ_ne_zero i)
      | none =>
        rw [h3] at h0
        dsimp only at h0
        cases h4 : rfind_sub t [' '] m with
        | some i =>
            rw [h4] at h0
            dsimp only at h0
            subst h0
            obtain ⟨rest, ht⟩ := head_case [' '] ' ' [] rfl
              (rfind_sub_some h4)
            exact ⟨' ', rest, ht, by decide⟩
        | none =>
            rw [h4] at h0
            dsimp only at h0
            omega

theorem split_progress {m : ℕ} (hm : 1 ≤ m) {t : List Char}
    (hlen : m < t.length) :
    (lstrip (t.drop (split_point m t))).length < t.length := by
  by_cases h0 : split_point m t = 0
  · obtain ⟨c, rest, ht, hsp⟩ := split_point_zero hm h0
    rw [h0, List.drop_zero, ht]
    calc (lstrip (c :: rest)).length
        = (List.dropWhile is_space rest).length := by
          simp [lstrip, List.dropWhile_cons, hsp]
      _ ≤ rest.length := (List.dropWhile_sublist _).length_le
      _ < (c :: rest).length := by simp
  · have h1 : 0 < split_point m t := Nat.pos_of_ne_zero h0
    calc (lstrip (t.drop (split_point m t))).length
        ≤ (t.drop (split_point m t)).length :=
          (List.dropWhile_sublist _).length_le
      _ = t.length - split_point m t := List.length_drop _ _
      _ < t.length := Nat.sub_lt (by omega) h1

theorem split_aux_step (m fuel : ℕ) (t : List Char) (h : ¬ t.length ≤ m) :
    split_aux m (fuel + 1) t =
      rstrip (t.take (split_point m t)) ::
        split_aux m fuel (lstrip (t.drop (split_point m t))) := by
  simp [split_aux, h]

theorem split_aux_base (m fuel : ℕ) (t : List Char) (h : t.length ≤ m) :
    split_aux m (fuel + 1) t = if t.isEmpty then [] else [t] := by
  simp [split_aux, h]

theorem split_aux_lossless (m : ℕ) (hm : 1 ≤ m) :
    ∀ (fuel : ℕ) (t : List Char), t.length ≤ fuel →
    ∃ ss, (∀ s ∈ ss, ∀ ch ∈ s, is_space ch = true)
      ∧ join_sep (split_aux m fuel t) ss = t := by
  intro fuel
  induction fuel with
  | zero =>
      intro t hle
      have ht : t = [] := List.eq_nil_of_length_eq_zero (Nat.le_zero.1 hle)
      subst ht
      exact ⟨[], by simp, by simp [split_aux, join_sep]⟩
  | succ fuel ih =>
      intro t hle
      by_cases hsmall : t.length ≤ m
      · rw [split_aux_base m fuel t hsmall]
        by_cases hemp : t.isEmpty
        · refine ⟨[], by simp, ?_⟩
          rw [if_pos hemp, List.isEmpty_iff.1 hemp]
          simp [join_sep]
        · refine ⟨[], by simp, ?_⟩
          rw [if_neg hemp]
          simp [join_sep]
      · rw [split_aux_step m fuel t hsmall]
        have hprog := split_progress hm (by omega :
          m < t.length)
        obtain ⟨ss, hws, hj⟩ := ih (lstrip (t.drop (split_point m t)))
          (by omega)
        obtain ⟨w1, hw1eq, hw1sp⟩ := rstrip_decomp (t.take (split_point m t))
        obtain ⟨w2, hw2eq, hw2sp⟩ := lstrip_decomp (t.drop (split_point m t))
        refine ⟨(w1 ++ w2) :: ss, ?_, ?_⟩
        · intro s hs
          rcases List.mem_cons.1 hs with h1 | h2
          · subst h1
            intro ch hch
            rcases List.mem_append.1 hch with ha | hb
            · exact hw1sp ch ha
            · exact hw2sp ch hb
          · exact hws s h2
        · simp only [join_sep]
          rw [hj]
          conv_rhs => rw [← List.take_append_drop (split_point m t) t]
          conv_rhs => rw [hw1eq, hw2eq]
          simp [List.append_assoc]

theorem split_at_boundaries_lossless (t : List Char) (m : ℕ) (hm : 1 ≤ m) :
    ∃ ss, (∀ s ∈ ss, ∀ ch ∈ s, is_space ch = true)
      ∧ join_sep (split_at_boundaries t m) ss = t :=
  split_aux_lossless m hm t.length t le_rfl

theorem no_ws_take {t : List Char} (h : ∀ c ∈ t, is_space c = false) (n : ℕ) :
    ∀ c ∈ t.take n, is_space c = false :=
  fun c hc => h c (List.mem_of_mem_take hc)

theorem no_ws_drop {t : List Char} (h : ∀ c ∈ t, is_space c = false) (n : ℕ) :
    ∀ c ∈ t.drop n, is_space c = false :=
  fun c hc => h c (List.mem_of_mem_drop hc)

theorem split_9000_no_ws (t : List Char) (hlen : t.length = 9000)
    (hns : ∀ c ∈ t, is_space c = false) :
    split_at_boundaries t 4000 =
      [t.take 4000, (t.drop 4000).take 4000, (t.drop 4000).drop 4000] := by
  have hlen2 : (t.drop 4000).length = 5000 := by simp [hlen]
  have hlen3 : ((t.drop 4000).drop 4000).length = 1000 := by simp [hlen]
  unfold split_at_boundaries
  rw [hlen, show (9000 : ℕ) = 8999 + 1 by norm_num,
    split_aux_step 4000 8999 t (by rw [hlen]; omega),
    split_point_no_ws 4000 hns,
    rstrip_no_ws (no_ws_take hns 4000),
    lstrip_no_ws (no_ws_drop hns 4000),
    show (8999 : ℕ) = 8998 + 1 by norm_num,
    split_aux_step 4000 8998 (t.drop 4000) (by rw [hlen2]; omega),
    split_point_no_ws 4000 (no_ws_drop hns 4000),
    rstrip_no_ws (no_ws_take (no_ws_drop hns 4000) 4000),
    lstrip_no_ws (no_ws_drop (no_ws_drop hns 4000) 4000),
    show (8998 : ℕ) = 8997 + 1 by norm_num,
    split_aux_base 4000 8997 ((t.drop 4000).drop 4000) (by rw [hlen3]; omega),
    if_neg (by
      rw [List.isEmpty_iff]
      intro hnil
      rw [hnil] at hlen3
      exact absurd hlen3 (by norm_num))]

theorem dropWhile_true_replicate_append {p : Char → Bool} {c : Char}
    (h : p c = true) (n : ℕ) (l : List Char) :
    List.dropWhile p (List.replicate n c ++ l) = List.dropWhile p l := by
  induction n with
  | zero => simp
  | succ k ih => simp [List.replicate_succ, List.dropWhile_cons, h, ih]

theorem dropWhile_false_replicate {p : Char → Bool} {c : Char}
    (h : p c = false) (n : ℕ) :
    List.dropWhile p (List.replicate n c) = List.replicate n c := by
  cases n with
  | zero => rfl
  | succ k => simp [List.replicate_succ, List.dropWhile_cons, h]

theorem cex9_drop :
    (List.replicate 1000 'a' ++ List.replicate 8000 ' ').drop 3999 =
      List.replicate 5001 ' ' := by
  rw [show (3999 : ℕ) = (List.replicate 1000 'a').length + 2999 by
      rw [List.length_replicate],
    List.drop_append, List.drop_replicate]

theorem cex9_take :
    (List.replicate 1000 'a' ++ List.replicate 8000 ' ').take 3999 =
      List.replicate 1000 'a' ++ List.replicate 2999 ' ' := by
  rw [show (3999 : ℕ) = (List.replicate 1000 'a').length + 2999 by
      rw [List.length_replicate],
    List.take_append, List.take_replicate,
    show (2999 ⊓ 8000 : ℕ) = 2999 from min_eq_left (by omega)]

theorem cex9_rstrip :
    rstrip (List.replicate 1000 'a' ++ List.replicate 2999 ' ') =
      List.replicate 1000 'a' := by
  unfold rstrip
  rw [List.reverse_append, List.reverse_replicate, List.reverse_replicate,
    dropWhile_true_replicate_append (by decide) 2999 _,
    dropWhile_false_replicate (by decide) 1000, List.reverse_replicate]

theorem cex9_lstrip : lstrip (List.replicate 5001 ' ') = [] := by
  unfold lstrip
  rw [← List.append_nil (List.replicate 5001 ' '),
    dropWhile_true_replicate_append (by decide) 5001 []]
  rfl

theorem cex9_nl_not_mem :
    '\n' ∉ List.replicate 1000 'a' ++ List.replicate 8000 ' ' := by
  intro h
  rcases List.mem_append.1 h with h1 | h2
  · exact absurd (List.eq_of_mem_replicate h1) (by decide)
  · exact absurd (List.eq_of_mem_replicate h2) (by decide)

theorem cex9_dot_not_mem :
    '.' ∉ List.replicate 1000 'a' ++ List.replicate 8000 ' ' := by
  intro h
  rcases List.mem_append.1 h with h1 | h2
  · exact absurd (List.eq_of_mem_replicate h1) (by decide)
  · exact absurd (List.eq_of_mem_replicate h2) (by decide)

theorem cex9_rfind_space :
    rfind_sub (List.replicate 1000 'a' ++ List.replicate 8000 ' ') [' '] 4000 =
      some 3999 := by
  unfold rfind_sub
  rw [show (4000 + 1 - [' '].length : ℕ) = 4000 from rfl,
    List.range_succ, List.reverse_append, List.reverse_singleton,
    List.singleton_append]
  have hp : (fun i => ((List.replicate 1000 'a' ++ List.replicate 8000 ' ').drop
      i).take [' '].length == [' ']) 3999 = true := by
    show ((List.replicate 1000 'a' ++ List.replicate 8000 ' ').drop 3999).take
      [' '].length == [' ']
    rw [cex9_drop]
    rfl
  exact List.find?_cons_of_pos _ hp

theorem split_point_eval (t : List Char) (m i : ℕ)
    (h1 : rfind_sub t ['\n', '\n'] m = none)
    (h2 : rfind_sub t ['\n'] m = none)
    (h3 : rfind_sub t ['.', ' '] m = none)
    (h4 : rfind_sub t [' '] m = some i) :
    split_point m t = i := by
  unfold split_point
  rw [h1, h2, h3, h4]

theorem cex9_split_point :
    split_point 4000 (List.replicate 1000 'a' ++ List.replicate 8000 ' ')
      = 3999 :=
  split_point_eval _ 4000 3999
    (rfind_sub_none_of_not_mem 4000 (show '\n' ∈ ['\n', '\n'] by simp)
      cex9_nl_not_mem)
    (rfind_sub_none_of_not_mem 4000 (show '\n' ∈ ['\n'] by simp)
      cex9_nl_not_mem)
    (rfind_sub_none_of_not_mem 4000 (show '.' ∈ ['.', ' '] by simp)
      cex9_dot_not_mem)
    cex9_rfind_space

theorem cex9_split :
    split_at_boundaries (List.replicate 1000 'a' ++ List.replicate 8000 ' ')
      4000 = [List.replicate 1000 'a'] := by
  have hlen : (List.replicate 1000 'a' ++ List.replicate 8000 ' ').length
      = 9000 := by
    rw [List.length_append, List.length_replicate, List.length_replicate]
  unfold split_at_boundaries
  rw [hlen, show (9000 : ℕ) = 8999 + 1 by norm_num,
    split_aux_step 4000 8999 _ (by rw [hlen]; omega),
    cex9_split_point, cex9_take, cex9_rstrip, cex9_drop, cex9_lstrip,
    show (8999 : ℕ) = 8998 + 1 by norm_num,
    split_aux_base 4000 8998 [] (by simp)]
  rfl

/- ---------- C9 ---------- -/

/-- Counterexample for C9 as stated: the 9,000-character response consisting
of 1,000 letters followed by 8,000 spaces is delivered through a
4,000-character channel as a single chunk — the splitter's rstrip/lstrip
swallows the whole space run — so "at least 3 chunks" fails. -/
theorem claim_C9_counterexample :
    (List.replicate 1000 'a' ++ List.replicate 8000 ' ').length = 9000
    ∧ send_chunked "whatsapp" (List.replicate 1000 'a' ++ List.replicate 8000 ' ')
        = [List.replicate 1000 'a']
    ∧ ¬(3 ≤ (send_chunked "whatsapp"
        (List.replicate 1000 'a' ++ List.replicate 8000 ' ')).length) := by
  have hlen : (List.replicate 1000 'a' ++ List.replicate 8000 ' ').length
      = 9000 := by
    rw [List.length_append, List.length_replicate, List.length_replicate]
  have hsend : send_chunked "whatsapp"
      (List.replicate 1000 'a' ++ List.replicate 8000 ' ')
        = [List.replicate 1000 'a'] := by
    unfold send_chunked
    rw [show channel_max_length "whatsapp" = 4000 from rfl,
      if_neg (by rw [hlen]; omega), cex9_split]
  refine ⟨hlen, hsend, ?_⟩
  rw [hsend]
  decide

/-- C9 (amended): chunked delivery sends the split chunks in reading order,
and re-joining them with the whitespace separators stripped at the cut points
reconstructs the original text losslessly; a 9,000-character response with no
whitespace is delivered through a 4,000-character channel as exactly 3 chunks
(two hard cuts) whose plain concatenation is the original text — but
responses with long whitespace runs can produce fewer than 3 chunks. -/
theorem claim_C9_chunking :
    (∀ (t : List Char) (m : ℕ), 1 ≤ m →
       ∃ ss, (∀ s ∈ ss, ∀ ch ∈ s, is_space ch = true)
         ∧ join_sep (split_at_boundaries t m) ss = t)
    ∧ (∀ t : List Char, t.length = 9000 → (∀ c ∈ t, is_space c = false) →
        send_chunked "whatsapp" t =
          [t.take 4000, (t.drop 4000).take 4000, (t.drop 4000).drop 4000]
        ∧ (send_chunked "whatsapp" t).length = 3
        ∧ (send_chunked "whatsapp" t).flatten = t) := by
  constructor
  · intro t m hm
    exact split_at_boundaries_lossless t m hm
  · intro t hlen hns
    have hsend : send_chunked "whatsapp" t =
        [t.take 4000, (t.drop 4000).take 4000, (t.drop 4000).drop 4000] := by
      unfold send_chunked
      rw [show channel_max_length "whatsapp" = 4000 from rfl,
        if_neg (by rw [hlen]; omega), split_9000_no_ws t hlen hns]
    refine ⟨hsend, by rw [hsend]; rfl, ?_⟩
    rw [hsend]
    simp only [List.flatten_cons, List.flatten_nil, List.append_nil]
    rw [List.take_append_drop, List.take_append_drop]

/-- Witness for C9's amended theorem: the all-letter 9,000-character response
splits into exactly 3 chunks, and the lossless-rejoin property instantiated
at that response. -/
theorem claim_C9_chunking_witness :
    (send_chunked "whatsapp" (List.replicate 9000 'a')).length = 3
    ∧ (send_chunked "whatsapp" (List.replicate 9000 'a')).flatten
        = List.replicate 9000 'a'
    ∧ ∃ ss, (∀ s ∈ ss, ∀ ch ∈ s, is_space ch = true)
        ∧ join_sep (split_at_boundaries (List.replicate 9000 'a') 4000) ss
            = List.replicate 9000 'a' := by
  have hns : ∀ c ∈ List.replicate 9000 'a', is_space c = false := by
    intro c hc
    rw [List.eq_of_mem_replicate hc]
    decide
  have h := claim_C9_chunking.2 (List.replicate 9000 'a')
    (by rw [List.length_replicate]) hns
  exact ⟨h.2.1, h.2.2, claim_C9_chunking.1 (List.replicate 9000 'a') 4000
    (by norm_num)⟩

/- ---------- Helper lemmas: context assembly ---------- -/

theorem pick_history_suffix :
    ∀ (lrev : List ChatMessage) (b : ℤ),
      ∃ n, n ≤ lrev.length ∧ pick_history b lrev = lrev.reverse.drop n := by
  intro lrev
  induction lrev with
  | nil => intro b; exact ⟨0, by simp, by simp [pick_history]⟩
  | cons m rest ih =>
      intro b
      by_cases hfit : (estimate_tokens m.content : ℤ) < b
      · obtain ⟨n, hn, he⟩ := ih (b - (estimate_tokens m.content : ℤ))
        refine ⟨n, by simp; omega, ?_⟩
        simp only [pick_history, if_pos hfit, he, List.reverse_cons]
        rw [List.drop_append_of_le_length (by simpa using hn)]
      · refine ⟨rest.length + 1, by simp, ?_⟩
        simp only [pick_history, if_neg hfit, List.reverse_cons]
        have hlen : (rest.reverse ++ [m]).length = rest.length + 1 := by simp
        rw [← hlen, List.drop_length]

theorem memory_step_roles (memories : List MemHit) (b0 : ℤ) :
    ∀ x ∈ (memory_step memories b0).1, x.role = "system" := by
  intro x hx
  unfold memory_step at hx
  split at hx
  · dsimp only at hx
    split at hx
    · rcases List.mem_singleton.1 hx with rfl
      rfl
    · exact absurd hx (List.not_mem_nil x)
  · exact absurd hx (List.not_mem_nil x)

theorem knowledge_step_roles (knowledge : Option String) (b1 : ℤ) :
    ∀ x ∈ (knowledge_step knowledge b1).1, x.role = "system" := by
  intro x hx
  unfold knowledge_step at hx
  split at hx
  · split at hx
    · split at hx
      · rcases List.mem_singleton.1 hx with rfl
        rfl
      · exact absurd hx (List.not_mem_nil x)
    · exact absurd hx (List.not_mem_nil x)
  · exact absurd hx (List.not_mem_nil x)

theorem history_step_suffix (history : List ChatMessage) (has_session : Bool)
    (b2 : ℤ) : ∃ n, history_step history has_session b2 = history.drop n := by
  unfold history_step
  split
  · obtain ⟨n, -, he⟩ := pick_history_suffix history.reverse b2
    exact ⟨n, by rw [he, List.reverse_reverse]⟩
  · exact ⟨history.length, by rw [List.drop_length]⟩

/- ---------- C6 ---------- -/

/-- C6: every `assemble` result starts with the fixed system prompt and ends
with the current user message (neither ever trimmed), and the included
session history is a chronologically ordered suffix of the fetched recent
turns — whatever the budget drops, it drops the oldest turns. -/
theorem claim_C6_assemble (memories : List MemHit) (knowledge : Option String)
    (history : List ChatMessage) (user_message : String) (has_session : Bool)
    (max_tokens : ℕ) :
    (assemble memories knowledge history user_message has_session
        max_tokens).head? = some ⟨"system", SYSTEM_PROMPT⟩
    ∧ (assemble memories knowledge history user_message has_session
        max_tokens).getLast? = some ⟨"user", user_message⟩
    ∧ ∃ (blocks : List ChatMessage) (n : ℕ),
        (∀ b ∈ blocks, b.role = "system")
        ∧ assemble memories knowledge history user_message has_session
            max_tokens =
          ⟨"system", SYSTEM_PROMPT⟩ ::
            (blocks ++ history.drop n ++ [⟨"user", user_message⟩]) := by
  have key : ∃ (blocks : List ChatMessage) (n : ℕ),
      (∀ b ∈ blocks, b.role = "system")
      ∧ assemble memories knowledge history user_message has_session
          max_tokens =
        ⟨"system", SYSTEM_PROMPT⟩ ::
          (blocks ++ history.drop n ++ [⟨"user", user_message⟩]) := by
    simp only [assemble]
    obtain ⟨n, hn⟩ := history_step_suffix history has_session
      (knowledge_step knowledge
        (memory_step memories
          ((max_tokens : ℤ) - (estimate_tokens SYSTEM_PROMPT : ℤ)
            - (estimate_tokens user_message : ℤ) - 500)).2).2
    refine ⟨(memory_step memories
        ((max_tokens : ℤ) - (estimate_tokens SYSTEM_PROMPT : ℤ)
          - (estimate_tokens user_message : ℤ) - 500)).1
      ++ (knowledge_step knowledge
        (memory_step memories
          ((max_tokens : ℤ) - (estimate_tokens SYSTEM_PROMPT : ℤ)
            - (estimate_tokens user_message : ℤ) - 500)).2).1, n, ?_, ?_⟩
    · intro b hb
      rcases List.mem_append.1 hb with h1 | h2
      · exact memory_step_roles _ _ b h1
      · exact knowledge_step_roles _ _ b h2
    · rw [hn, List.append_assoc]
  obtain ⟨blocks, n, hroles, heq⟩ := key
  refine ⟨?_, ?_, blocks, n, hroles, heq⟩
  · rw [heq]; rfl
  · rw [heq]
    rw [show (⟨"system", SYSTEM_PROMPT⟩ : ChatMessage) ::
        (blocks ++ history.drop n ++ [⟨"user", user_message⟩]) =
        (⟨"system", SYSTEM_PROMPT⟩ :: (blocks ++ history.drop n))
          ++ [⟨"user", user_message⟩] by simp]
    exact List.getLast?_concat _

/- ---------- Helper lemmas: duplicate-detection threshold ---------- -/

theorem one_term_lt_threshold (i : ℕ) : (1:ℚ)/((60:ℚ)+(i:ℚ)+1) < 3/100 := by
  have h0 : (0:ℚ) ≤ (i:ℚ) := by positivity
  have h1 : (61:ℚ) ≤ (60:ℚ)+(i:ℚ)+1 := by linarith
  have h2 : (1:ℚ)/((60:ℚ)+(i:ℚ)+1) ≤ 1/61 := by
    apply one_div_le_one_div_of_le <;> linarith
  linarith

theorem two_term_threshold_gap (a b : ℕ)
    (h : 3/100 ≤ (1:ℚ)/((60:ℚ)+(a:ℚ)+1) + 1/((60:ℚ)+(b:ℚ)+1)) :
    60001/2000000 ≤ (1:ℚ)/((60:ℚ)+(a:ℚ)+1) + 1/((60:ℚ)+(b:ℚ)+1) := by
  have ha0 : (0:ℚ) ≤ (a:ℚ) := by positivity
  have hb0 : (0:ℚ) ≤ (b:ℚ) := by positivity
  have hA : (0:ℚ) < (60:ℚ)+(a:ℚ)+1 := by linarith
  have hB : (0:ℚ) < (60:ℚ)+(b:ℚ)+1 := by linarith
  have hBle : (1:ℚ)/((60:ℚ)+(b:ℚ)+1) ≤ 1/61 := by
    apply one_div_le_one_div_of_le <;> linarith
  have hAle : (1:ℚ)/((60:ℚ)+(a:ℚ)+1) ≤ 1/61 := by
    apply one_div_le_one_div_of_le <;> linarith
  have hAge : (83:ℚ)/6100 ≤ 1/((60:ℚ)+(a:ℚ)+1) := by
    have : (3:ℚ)/100 - 1/61 ≤ 1/((60:ℚ)+(a:ℚ)+1) := by linarith
    linarith [this]
  have hBge : (83:ℚ)/6100 ≤ 1/((60:ℚ)+(b:ℚ)+1) := by
    have : (3:ℚ)/100 - 1/61 ≤ 1/((60:ℚ)+(b:ℚ)+1) := by linarith
    linarith [this]
  have hAub : (60:ℚ)+(a:ℚ)+1 ≤ 6100/83 := by
    rw [div_le_div_iff (by norm_num) hA] at hAge
    linarith
  have hBub : (60:ℚ)+(b:ℚ)+1 ≤ 6100/83 := by
    rw [div_le_div_iff (by norm_num) hB] at hBge
    linarith
  have ha12 : a ≤ 12 := by
    by_contra hc
    push_neg at hc
    have : (13:ℚ) ≤ (a:ℚ) := by exact_mod_cast hc
    nlinarith
  have hb12 : b ≤ 12 := by
    by_contra hc
    push_neg at hc
    have : (13:ℚ) ≤ (b:ℚ) := by exact_mod_cast hc
    nlinarith
  interval_cases a <;> interval_cases b <;> norm_num at h ⊢

theorem contrib_sum_threshold (v f : List ℕ) (rid : ℕ) (sc : ℚ)
    (hsc : sc = contrib 60 v rid + contrib 60 f rid) (h : 3/100 ≤ sc) :
    60001/2000000 ≤ sc := by
  unfold contrib at hsc
  by_cases hvm : rid ∈ v <;> by_cases hfm : rid ∈ f
  · rw [if_pos hvm, if_pos hfm] at hsc
    subst hsc
    exact two_term_threshold_gap _ _ h
  · rw [if_pos hvm, if_neg hfm, add_zero] at hsc
    subst hsc
    exact absurd h (not_le.2 (one_term_lt_threshold _))
  · rw [if_neg hvm, if_pos hfm, zero_add] at hsc
    subst hsc
    exact absurd h (not_le.2 (one_term_lt_threshold _))
  · rw [if_neg hvm, if_neg hfm, add_zero] at hsc
    subst hsc
    exact absurd h (by norm_num)

theorem round6_gt_threshold (sc : ℚ) (h : 60001/2000000 ≤ sc) :
    round6 sc > 3/100 := by
  unfold round6
  have h1 : (30001 : ℤ) ≤ round (sc * 1000000) := by
    rw [round_eq, Int.le_floor]
    push_cast
    nlinarith
  have h2 : (30001 : ℚ) ≤ ((round (sc * 1000000) : ℤ) : ℚ) := by
    exact_mod_cast h1
  rw [gt_iff_lt, lt_div_iff (by norm_num : (0:ℚ) < 1000000)]
  linarith

theorem search_results_vector (records : List Mem) (v f : List ℕ) (lim : ℕ)
    (min_conf : ℚ) :
    search_results records v f true lim min_conf =
      (((rrf_merge v f 60).filter
          (fun p => decide (min_conf ≤ conf_of records p.1))).take lim).map
        (fun p => (⟨p.1, conf_of records p.1, some (round6 p.2)⟩ : Hit)) := by
  unfold search_results
  rw [if_pos rfl]
  dsimp only
  rw [List.filter_map, ← List.map_take]
  rfl

/- ---------- C4 ---------- -/

/-- C4: when `store` finds a top search hit whose fused relevance score is at
or above the duplicate-detection threshold 0.03 (no reachable RRF score with
k = 60 lies in [0.03, 0.0300005), so the code's strict `> 0.03` comparison on
the 6-decimal-rounded score agrees with "at or above"), no second record is
created: the existing record's confidence becomes `min(confidence + 0.1, 1)`,
and its id is returned. -/
theorem claim_C4_store_dedup (records : List Mem) (v f : List ℕ)
    (hv : v.Nodup) (hf : f.Nodup) (rid : ℕ) (sc : ℚ)
    (hhead : ((rrf_merge v f 60).filter
        (fun p => decide ((0:ℚ) ≤ conf_of records p.1))).head? = some (rid, sc))
    (hsc : 3/100 ≤ sc)
    (embed_ok : Bool) (new_id : ℕ) (content category : String) (c0 : ℚ)
    (exp : Option ℤ) (now : ℤ) :
    (store records v f true true embed_ok new_id content category c0 exp
        now).inserted = false
    ∧ (store records v f true true embed_ok new_id content category c0 exp
        now).returned_id = rid
    ∧ (store records v f true true embed_ok new_id content category c0 exp
        now).records = bump_confidence now rid (track_access now [rid] records)
    ∧ (store records v f true true embed_ok new_id content category c0 exp
        now).records.length = records.length
    ∧ ∀ r ∈ records, r.id = rid →
        { r with confidence := min (r.confidence + 1/10) 1,
                 access_count := r.access_count + 1 + 1,
                 last_accessed_at := some now } ∈
          (store records v f true true embed_ok new_id content category c0 exp
            now).records := by
  -- the top pair is a real fused score, so it exceeds the threshold strictly
  have hmem : (rid, sc) ∈ (rrf_merge v f 60).filter
      (fun p => decide ((0:ℚ) ≤ conf_of records p.1)) := by
    cases hfil : (rrf_merge v f 60).filter
        (fun p => decide ((0:ℚ) ≤ conf_of records p.1)) with
    | nil => rw [hfil] at hhead; exact absurd hhead (by simp)
    | cons q qs =>
        rw [hfil] at hhead
        simp only [List.head?_cons, Option.some.injEq] at hhead
        subst hhead
        exact List.mem_cons_self _ _
  have hmem2 : (rid, sc) ∈ rrf_scores v f 60 :=
    (sort_desc_perm _).mem_iff.1 (List.mem_of_mem_filter hmem)
  have hlk : lookup_score (rrf_scores v f 60) rid = sc :=
    lookup_eq_of_mem_nodup _ (rrf_scores_keys_nodup v f 60) rid sc hmem2
  have hform : sc = contrib 60 v rid + contrib 60 f rid := by
    rw [← hlk, rrf_scores_lookup 60 v f hv hf]
  have hgap : 60001/2000000 ≤ sc := contrib_sum_threshold v f rid sc hform hsc
  have hround : round6 sc > 3/100 := round6_gt_threshold sc hgap
  -- the search inside store returns exactly the rounded top hit
  have hires : search_results records v f true 1 0 =
      [⟨rid, conf_of records rid, some (round6 sc)⟩] := by
    rw [search_results_vector records v f 1 0]
    cases hfil : (rrf_merge v f 60).filter
        (fun p => decide ((0:ℚ) ≤ conf_of records p.1)) with
    | nil => rw [hfil] at hhead; exact absurd hhead (by simp)
    | cons q qs =>
        rw [hfil] at hhead
        simp only [List.head?_cons, Option.some.injEq] at hhead
        subst hhead
        simp
  have hbool : (true && true) = true := rfl
  have hstore : store records v f true true embed_ok new_id content category
      c0 exp now =
      ⟨bump_confidence now rid (track_access now [rid] records), rid, false⟩ := by
    unfold store search
    rw [hbool, hires]
    simp only [List.isEmpty_cons, List.map_cons, List.map_nil]
    rw [if_pos (by simpa using hround)]
    rfl
  rw [hstore]
  refine ⟨rfl, rfl, rfl, ?_, ?_⟩
  · simp [bump_confidence, track_access]
  · intro r hr hid
    refine List.mem_map.2
      ⟨{ r with access_count := r.access_count + 1,
                last_accessed_at := some now },
       List.mem_map.2 ⟨r, hr, by simp [hid]⟩, by simp [hid]⟩

/-- Witness for C4: one record, returned top of both ranked lists, has fused
score 1/61 + 1/61 = 2/61 ≥ 0.03; storing near-duplicate content bumps it
instead of inserting. -/
theorem claim_C4_store_dedup_witness :
    (store [⟨1, "server ip is 10.0.0.1", "fact", 1/2, false, none, none, 0, 0,
        true⟩] [1] [1] true true true 2 "server ip is 10.0.0.1" "fact" (1/2)
        none 5).inserted = false
    ∧ (store [⟨1, "server ip is 10.0.0.1", "fact", 1/2, false, none, none, 0,
        0, true⟩] [1] [1] true true true 2 "server ip is 10.0.0.1" "fact"
        (1/2) none 5).returned_id = 1
    ∧ ({ (⟨1, "server ip is 10.0.0.1", "fact", 1/2, false, none, none, 0, 0,
          true⟩ : Mem) with
          confidence := min ((1:ℚ)/2 + 1/10) 1,
          access_count := 0 + 1 + 1,
          last_accessed_at := some 5 } ∈
        (store [⟨1, "server ip is 10.0.0.1", "fact", 1/2, false, none, none,
          0, 0, true⟩] [1] [1] true true true 2 "server ip is 10.0.0.1"
          "fact" (1/2) none 5).records) := by
  have hhead : (((rrf_merge [1] [1] 60).filter
      (fun p => decide ((0:ℚ) ≤ conf_of [(⟨1, "server ip is 10.0.0.1", "fact",
        1/2, false, none, none, 0, 0, true⟩ : Mem)] p.1))).head?)
      = some (1, 1/61 + 1/61) := by
    have hmerge : rrf_merge [1] [1] 60 = [(1, 1/61 + 1/61)] := by
      norm_num [rrf_merge, rrf_scores, rrf_pass, bump_score, sort_desc,
        insert_desc, List.foldr]
    rw [hmerge]
    norm_num [List.filter_cons, conf_of, List.find?]
  have h := claim_C4_store_dedup
    [⟨1, "server ip is 10.0.0.1", "fact", 1/2, false, none, none, 0, 0, true⟩]
    [1] [1] (by simp) (by simp) 1 (1/61 + 1/61) hhead (by norm_num)
    true 2 "server ip is 10.0.0.1" "fact" (1/2) none 5
  refine ⟨h.1, h.2.1, ?_⟩
  have hm := h.2.2.2.2
    ⟨1, "server ip is 10.0.0.1", "fact", 1/2, false, none, none, 0, 0, true⟩
    (by simp) rfl
  simpa using hm

/- ---------- Helper lemmas: tier selection ---------- -/

theorem determine_tier_auto_eval (p : String) (ck sk : Bool) (n : ℕ)
    (hck : complex_keywords.any
      (fun kw => contains_sub kw.toList (p.toList.map Char.toLower)) = ck)
    (hsk : simple_keywords.any
      (fun kw => contains_sub kw.toList (p.toList.map Char.toLower)) = sk)
    (hwc : word_count p.toList = n) :
    determine_tier p "auto" =
      if ck || decide ((n : ℚ) * 13 / 10 > 500) then 3
      else if sk && decide ((n : ℚ) * 13 / 10 < 100) then 1
      else 2 := by
  simp only [determine_tier]
  rw [if_neg (by decide : ¬("auto" = "low")),
    if_neg (by decide : ¬("auto" = "high")), hck, hsk, hwc]

/- ---------- C7 ---------- -/

/-- C7: with complexity "auto", "restart nginx" selects tier 1; the prompt
"plan a migration and analyze security risk" selects tier 3 — as does any
prompt containing a complexity keyword, whatever its length; and any
600-word prompt containing no routing keyword of either list selects tier 3
purely because its token estimate (600 × 1.3 = 780) exceeds 500. -/
theorem claim_C7_tier_selection :
    determine_tier "restart nginx" "auto" = 1
    ∧ determine_tier "plan a migration and analyze security risk" "auto" = 3
    ∧ (∀ p : String,
        complex_keywords.any
          (fun kw => contains_sub kw.toList (p.toList.map Char.toLower)) = true →
        determine_tier p "auto" = 3)
    ∧ (∀ p : String, word_count p.toList = 600 →
        complex_keywords.any
          (fun kw => contains_sub kw.toList (p.toList.map Char.toLower)) = false →
        simple_keywords.any
          (fun kw => contains_sub kw.toList (p.toList.map Char.toLower)) = false →
        determine_tier p "auto" = 3) := by
  refine ⟨?_, ?_, ?_, ?_⟩
  · rw [determine_tier_auto_eval "restart nginx" false true 2 (by decide)
      (by decide) (by decide)]
    norm_num
  · rw [determine_tier_auto_eval "plan a migration and analyze security risk"
      true (simple_keywords.any (fun kw => contains_sub kw.toList
        ("plan a migration and analyze security risk".toList.map Char.toLower)))
      (word_count "plan a migration and analyze security risk".toList)
      (by decide) rfl rfl]
    simp
  · intro p h
    rw [determine_tier_auto_eval p true
      (simple_keywords.any (fun kw => contains_sub kw.toList (p.toList.map Char.toLower)))
      (word_count p.toList) h rfl rfl]
    simp
  · intro p h600 hcf hsf
    rw [determine_tier_auto_eval p false false 600 hcf hsf h600]
    norm_num

set_option maxRecDepth 100000 in
/-- Witness for C7's quantified part at a concrete 600-word prompt
(600 copies of "w "). -/
theorem claim_C7_tier_selection_witness :
    word_count (String.mk ((List.replicate 600 ['w', ' ']).flatten)).toList = 600
    ∧ determine_tier (String.mk ((List.replicate 600 ['w', ' ']).flatten)) "auto" = 3 := by
  have h600 : word_count (String.mk ((List.replicate 600 ['w', ' ']).flatten)).toList
      = 600 := by decide
  refine ⟨h600, claim_C7_tier_selection.2.2.2 _ h600 (by decide) (by decide)⟩

/- ---------- C8 ---------- -/

/-- Witness for C8: with three one-model tiers, total failure returns the
unavailability message having attempted all three candidates; if tier 3 fails
and tier 2 succeeds, tier 2's text is returned and tier 1 is never tried. -/
theorem claim_C8_failover_witness :
    call_with_failover (fun _ => ["m"]) (fun _ => none) 3 =
      (unavailable_message, [(3, "m"), (2, "m"), (1, "m")])
    ∧ call_with_failover (fun _ => ["m"])
        (fun c => if c.1 = 2 then some "ok" else none) 3 =
      ("ok", [(3, "m"), (2, "m")]) := by
  have hc : tier_candidates (fun _ => ["m"]) 3 = [(3, "m"), (2, "m"), (1, "m")] := by
    rfl
  constructor
  · rw [show ((unavailable_message, [(3, "m"), (2, "m"), (1, "m")]) :
        String × List (ℕ × String)) =
        (unavailable_message, tier_candidates (fun _ => ["m"]) 3) by rw [hc]]
    exact claim_C8_failover.1 (fun _ => ["m"]) (fun _ => none) 3
      (fun c _ => rfl)
  · exact claim_C8_failover.2 (fun _ => ["m"])
      (fun c => if c.1 = 2 then some "ok" else none) 3
      [(3, "m")] [(1, "m")] (2, "m") "ok" (by rw [hc]; rfl) (by decide) (by decide)

end Sai
